import Mathlib

set_option maxRecDepth 16384

/-!
Verification of the build-orchestration logic of `setup.py`:
staleness evaluation, directive parsing, the regex patch engine applied to
regenerated C translation units, the tool-availability checks, the version
extraction, and the (intended) one-time-initialization discipline of the
`build_ext` command object.

Text is modelled as `List Char`.  The three patch rules of
`build_ext._patch_cfile` are `re.sub` calls in verbose mode whose patterns
are alternations of literal runs and `\s*` / `\s+` gaps; every literal run
starts with (and consists of) non-whitespace characters, which makes the
Python backtracking matcher deterministic on them, so they are embedded as
a deterministic scanner.
-/

namespace AsyncpgSetup

/-- `\s` of the Python `re` module, for the ASCII range in which the
generated C sources live. -/
def pySpace (c : Char) : Bool :=
  c = ' ' || c = '\t' || c = '\n' || c = '\r' || c = '\x0b' || c = '\x0c'

/-- One element of a verbose-mode pattern: a literal run, `\s*`, or `\s+`. -/
inductive PatElem where
  | lit : List Char → PatElem
  | ws0 : PatElem
  | ws1 : PatElem
deriving DecidableEq, Repr

/-- Result of running a pattern against a finite piece of input: the
pattern failed, matched with leftover input, or consumed the whole piece
and would need more input (`σ` is the residual pattern). -/
inductive ScanRes where
  | failed : ScanRes
  | matched : List Char → ScanRes
  | needMore : List PatElem → ScanRes
deriving DecidableEq, Repr

/-- Result of consuming one literal run from the input: mismatch, fully
consumed with leftover input, or input ran out mid-literal (the unread
part of the literal is returned). -/
inductive LitRes where
  | failed : LitRes
  | done : List Char → LitRes
  | ranOut : List Char → LitRes
deriving DecidableEq, Repr

def scanLit : List Char → List Char → LitRes
  | [], cs => .done cs
  | l :: ls, [] => .ranOut (l :: ls)
  | l :: ls, c :: cs => if l = c then scanLit ls cs else .failed

/-- Deterministic scanner for whitespace/literal patterns.  `\s*` consumes
greedily; since every literal begins with a non-whitespace character this
agrees with the backtracking semantics of Python `re` on the patterns of
`_patch_cfile`. -/
def scanPat : List PatElem → List Char → ScanRes
  | [], cs => .matched cs
  | .lit l :: es, cs =>
      match scanLit l cs with
      | .failed => .failed
      | .ranOut lrem => .needMore (.lit lrem :: es)
      | .done rest => scanPat es rest
  | .ws0 :: es, cs =>
      match cs.dropWhile pySpace with
      | [] => .needMore (.ws0 :: es)
      | c :: cs' => scanPat es (c :: cs')
  | .ws1 :: es, cs =>
      match cs with
      | [] => .needMore (.ws1 :: es)
      | c :: cs' =>
          if pySpace c then
            match cs'.dropWhile pySpace with
            | [] => .needMore (.ws0 :: es)
            | d :: cs'' => scanPat es (d :: cs'')
          else .failed

/-- A pattern that can match the empty string: only `\s*` and empty
literals. -/
def nullable : List PatElem → Bool
  | [] => true
  | .lit [] :: es => nullable es
  | .ws0 :: es => nullable es
  | _ => false

/-- Match a pattern at the start of `cs`; on success return the input left
over after the match. -/
def matchElems (σ : List PatElem) (cs : List Char) : Option (List Char) :=
  match scanPat σ cs with
  | .matched rest => some rest
  | .needMore σ' => if nullable σ' then some [] else none
  | .failed => none

/-- `re.sub` with the given pattern and literal replacement: scan left to
right, replace every (non-overlapping, leftmost) match.  `fuel` bounds the
recursion; all patterns used here consume at least one character per match,
so `fuel = cs.length` computes the exact substitution. -/
def subAllAux (p : List PatElem) (r : List Char) : Nat → List Char → List Char
  | _, [] => []
  | 0, cs => cs
  | fuel + 1, c :: cs =>
      match matchElems p (c :: cs) with
      | some rest => r ++ subAllAux p r fuel rest
      | none => c :: subAllAux p r fuel cs

/-- `re.sub(pattern, repl, text)` for the patterns of `_patch_cfile`. -/
def subAll (p : List PatElem) (r : List Char) (cs : List Char) : List Char :=
  subAllAux p r cs.length cs

/-- `re.sub(pattern, repl, text, count=1)`: replace only the leftmost
match.  Used to state the "apply once per document" reading of the spec. -/
def subFirstAux (p : List PatElem) (r : List Char) : Nat → List Char → List Char
  | _, [] => []
  | 0, cs => cs
  | fuel + 1, c :: cs =>
      match matchElems p (c :: cs) with
      | some rest => r ++ rest
      | none => c :: subFirstAux p r fuel cs

def subFirst (p : List PatElem) (r : List Char) (cs : List Char) : List Char :=
  subFirstAux p r cs.length cs

/-! ## The three patch rules of `build_ext._patch_cfile`

Patterns are the verbose-mode regexes with insignificant whitespace
removed; replacements are the exact raw-string contents. -/

/-- Rule 1 pattern: the coroutine type-object field block
`offsetof(__pyx_CoroutineObject, gi_weakreflist), 0, 0, ...`. -/
def pat1 : List PatElem :=
  [.ws0, .lit "offsetof(__pyx_CoroutineObject,".data,
   .ws0, .lit "gi_weakreflist),".data,
   .ws0, .lit "0,".data,
   .ws0, .lit "0,".data,
   .ws0, .lit "__pyx_Coroutine_methods,".data,
   .ws0, .lit "__pyx_Coroutine_memberlist,".data,
   .ws0, .lit "__pyx_Coroutine_getsets,".data]

/-- Rule 1 replacement: wires `tp_iter` / `tp_iternext` slots. -/
def rep1 : List Char :=
  ("\n            offsetof(__pyx_CoroutineObject, gi_weakreflist),\n            __Pyx_Coroutine_await, /* tp_iter */\n            (iternextfunc) __Pyx_Generator_Next, /* tp_iternext */\n            __pyx_Coroutine_methods,\n            __pyx_Coroutine_memberlist,\n            __pyx_Coroutine_getsets,\n            ").data

/-- Rule 2 pattern: the unguarded `__Pyx_Coroutine_get_qualname` accessor. -/
def pat2 : List PatElem :=
  [.ws0, .lit "__Pyx_Coroutine_get_qualname(__pyx_CoroutineObject".data,
   .ws1, .lit "*self)".data,
   .ws0, .lit "\x7b".data,
   .ws0, .lit "Py_INCREF(self->gi_qualname);".data]

/-- Rule 2 replacement: inserts the null guard before the `Py_INCREF`. -/
def rep2 : List Char :=
  ("\n            __Pyx_Coroutine_get_qualname(__pyx_CoroutineObject *self)\n            \x7b\n                if (self->gi_qualname == NULL) \x7b return __pyx_empty_unicode; \x7d\n                Py_INCREF(self->gi_qualname);\n            ").data

/-- Rule 3 pattern: the unguarded `__Pyx_Coroutine_get_name` accessor. -/
def pat3 : List PatElem :=
  [.ws0, .lit "__Pyx_Coroutine_get_name(__pyx_CoroutineObject".data,
   .ws1, .lit "*self)".data,
   .ws0, .lit "\x7b".data,
   .ws0, .lit "Py_INCREF(self->gi_name);".data]

/-- Rule 3 replacement. -/
def rep3 : List Char :=
  ("\n            __Pyx_Coroutine_get_name(__pyx_CoroutineObject *self)\n            \x7b\n                if (self->gi_name == NULL) \x7b return __pyx_empty_unicode; \x7d\n                Py_INCREF(self->gi_name);\n            ").data

/-- The pure core of `_patch_cfile`: the three substitutions in source
order applied to the file's text. -/
def patchText (src : List Char) : List Char :=
  subAll pat3 rep3 (subAll pat2 rep2 (subAll pat1 rep1 src))

/-- `_patch_cfile` on a file's full contents (read, transform, write). -/
def patchCFile (s : String) : String :=
  String.mk (patchText s.data)

/-! ## Residual states of a scan -/

/-- All residual patterns the scanner can be left with after consuming a
finite piece of input while matching `p`. -/
def statesOf : List PatElem → List (List PatElem)
  | [] => [[]]
  | .lit l :: es => (l.tails.map fun ls => PatElem.lit ls :: es) ++ statesOf es
  | .ws0 :: es => (PatElem.ws0 :: es) :: statesOf es
  | .ws1 :: es => (PatElem.ws1 :: es) :: (PatElem.ws0 :: es) :: statesOf es

/-! ## Conditions under which a substitution creates no new matches

Both conditions are decidable facts about a pattern and a replacement
string, checked by evaluation for the rule set of `_patch_cfile`. -/

/-- Every non-nullable residual state of `q`, resumed at the start of the
replacement `r`, fails inside `r`. -/
def condA (q : List PatElem) (r : List Char) : Bool :=
  (statesOf q).all fun σ =>
    nullable σ ||
      (match scanPat σ r with
       | .failed => true
       | _ => false)

/-- A fresh scan of `q` started at any suffix of the replacement `r`
either fails inside `r` or is still at its leading `\s*` when `r` ends. -/
def condB (q : List PatElem) (r : List Char) : Bool :=
  r.tails.all fun t =>
    match scanPat q t with
    | .failed => true
    | .needMore σ => decide (σ = q)
    | .matched _ => false

/-- `q` matches at no position of `cs`. -/
def NoMatch (q : List PatElem) (cs : List Char) : Prop :=
  ∀ t, t <:+ cs → matchElems q t = none

/-! ## Directive parsing (`finalize_options`, lines 88–97) -/

/-- Errors surfaced by the embedded `setup.py` fragments. -/
inductive PyError where
  | attributeError : PyError
  | toolUnavailable : PyError
  | toolVersionTooOld : PyError
  | versionStringMissing : PyError
deriving DecidableEq, Repr

/-- Python `str.lower` on the ASCII range (directive strings and version
lines are ASCII). -/
def pyLower (c : Char) : Char :=
  if 'A' ≤ c && c ≤ 'Z' then Char.ofNat (c.toNat + 32) else c

/-- `directive.partition('=')` restricted to the pieces the code binds:
the part before the first `=` and the part after it (empty when there is
no `=`). -/
def partEq : List Char → List Char × List Char
  | [] => ([], [])
  | c :: cs =>
      if c = '=' then ([], cs)
      else
        let kv := partEq cs
        (c :: kv.1, kv.2)

/-- Python `str.split(',')`: never empty, empty pieces preserved. -/
def splitComma : List Char → List (List Char)
  | [] => [[]]
  | c :: cs =>
      if c = ',' then [] :: splitComma cs
      else
        match splitComma cs with
        | t :: ts => (c :: t) :: ts
        | [] => [[c]]

/-- A parsed directive value: boolean or raw string. -/
inductive DirVal where
  | boolVal : Bool → DirVal
  | strVal : String → DirVal
deriving DecidableEq, Repr

/-- One directive token: `k, _, v = directive.partition('=')` followed by
the two sequential normalization `if` statements.  When the first `if`
fires it rebinds `v` to the Python boolean `False`; the second `if` then
calls `.lower()` on that boolean, which raises `AttributeError`. -/
def parseDirective (tok : List Char) : Except PyError (String × DirVal) :=
  let kv := partEq tok
  let v := kv.2
  if v.map pyLower = "false".data then .error .attributeError
  else if v.map pyLower = "true".data then .ok (String.mk kv.1, .boolVal true)
  else .ok (String.mk kv.1, .strVal (String.mk v))

/-- Python-dict insertion: replace the value in place on a repeated key,
append otherwise. -/
def updateDict {β : Type} (k : String) (v : β) :
    List (String × β) → List (String × β)
  | [] => [(k, v)]
  | (k', v') :: rest =>
      if k' = k then (k, v) :: rest else (k', v') :: updateDict k v rest

def parseDirectivesAux : List (List Char) → List (String × DirVal) →
    Except PyError (List (String × DirVal))
  | [], acc => .ok acc
  | tok :: toks, acc =>
      match parseDirective tok with
      | .error e => .error e
      | .ok (k, v) => parseDirectivesAux toks (updateDict k v acc)

/-- The directive-string parsing loop of `finalize_options`. -/
def parseDirectives (s : String) : Except PyError (List (String × DirVal)) :=
  parseDirectivesAux (splitComma s.data) []

/-! ## Staleness evaluation (`finalize_options`, lines 57–73) -/

/-- Filesystem view: the existing paths with their modification times. -/
structure FS where
  files : List (String × Nat)
deriving DecidableEq, Repr

def FS.pathExists (fs : FS) (p : String) : Bool :=
  (fs.files.lookup p).isSome

/-- `os.path.getmtime`; only consulted on paths that exist. -/
def FS.mtime (fs : FS) (p : String) : Nat :=
  (fs.files.lookup p).getD 0

def listEndsWith (l suf : List Char) : Bool :=
  suf.reverse.isPrefixOf l.reverse

def endsWithPyx (s : String) : Bool :=
  listEndsWith s.data ".pyx".data

/-- Index of the last occurrence of `c`, if any. -/
def lastIdx (c : Char) : List Char → Option Nat
  | [] => none
  | x :: xs =>
      match lastIdx c xs with
      | some j => some (j + 1)
      | none => if x = c then some 0 else none

/-- `os.path.splitext` (POSIX rules): split at the last dot, unless every
character between the last slash and that dot is itself a dot. -/
def splitext (p : String) : String × String :=
  let cs := p.data
  let sepIdx : Int :=
    match lastIdx '/' cs with
    | some i => (i : Int)
    | none => -1
  match lastIdx '.' cs with
  | none => (p, "")
  | some d =>
      if (d : Int) > sepIdx then
        let fnameStart := (sepIdx + 1).toNat
        if ((cs.drop fnameStart).take (d - fnameStart)).any (fun ch => ch ≠ '.') then
          (String.mk (cs.take d), String.mk (cs.drop d))
        else (p, "")
      else (p, "")

/-- `cfile = prefix + '.c'` with `prefix, ext = os.path.splitext(sfile)`. -/
def companionC (sfile : String) : String :=
  (splitext sfile).1 ++ ".c"

/-- What the staleness loop decides for one source-list entry. -/
inductive SrcDecision where
  | keep : SrcDecision
  | rewritten : String → SrcDecision
  | regen : String → Nat → SrcDecision
deriving DecidableEq, Repr

/-- Lines 62–73: the per-entry decision.  A `.pyx` entry with an existing
companion and no `--cython-always` is rewritten; otherwise the companion
is recorded (current timestamp, or the `0` sentinel when absent) and
regeneration is requested. -/
def stalenessDecision (fs : FS) (always : Bool) (sfile : String) : SrcDecision :=
  if endsWithPyx sfile then
    let cfile := companionC sfile
    if fs.pathExists cfile && !always then .rewritten cfile
    else .regen cfile (if fs.pathExists cfile then fs.mtime cfile else 0)
  else .keep

/-- The accumulator threaded through the staleness loop: the recorded
companion baselines (`cfiles`) and the `need_cythonize` flag. -/
structure ScanState where
  cfiles : List (String × Nat)
  needCythonize : Bool
deriving DecidableEq, Repr

/-- The replacement entry the loop leaves at a source's index. -/
def newEntry (fs : FS) (always : Bool) (sfile : String) : String :=
  match stalenessDecision fs always sfile with
  | .rewritten cfile => cfile
  | _ => sfile

def stateUpdate (fs : FS) (always : Bool) (sfile : String)
    (st : ScanState) : ScanState :=
  match stalenessDecision fs always sfile with
  | .regen cfile baseline => ⟨updateDict cfile baseline st.cfiles, true⟩
  | _ => st

/-- The inner loop of lines 61–73 over one extension's source list. -/
def scanSources (fs : FS) (always : Bool) :
    List String → ScanState → List String × ScanState
  | [], st => ([], st)
  | sfile :: rest, st =>
      let step := scanSources fs always rest (stateUpdate fs always sfile st)
      (newEntry fs always sfile :: step.1, step.2)

/-- The outer loop of line 60 over all declared extensions. -/
def scanExtensions (fs : FS) (always : Bool) :
    List (List String) → ScanState → List (List String) × ScanState
  | [], st => ([], st)
  | ext :: rest, st =>
      let step := scanSources fs always ext st
      let stepRest := scanExtensions fs always rest step.2
      (step.1 :: stepRest.1, stepRest.2)

/-! ## Tool gate and patch gate (`finalize_options`, lines 75–84, 104–107) -/

/-- Python string `<`: lexicographic comparison by code point. -/
def pyStrLt : List Char → List Char → Bool
  | [], [] => false
  | [], _ :: _ => true
  | _ :: _, [] => false
  | a :: as, b :: bs => if a = b then pyStrLt as bs else decide (a.toNat < b.toNat)

/-- Lines 76–84: `import Cython` (`none` means the import fails) and the
string comparison of `Cython.__version__` against `'0.24'`. -/
def cythonCheck (cython : Option String) : Except PyError Unit :=
  match cython with
  | none => .error .toolUnavailable
  | some ver =>
      if pyStrLt ver.data "0.24".data then .error .toolVersionTooOld else .ok ()

/-- The availability/version gate as `finalize_options` reaches it: only
evaluated when `need_cythonize` is true. -/
def toolGate (need : Bool) (cython : Option String) : Except PyError Unit :=
  if need then cythonCheck cython else .ok ()

/-- Lines 104–107: patch exactly the recorded translation units whose
current timestamp differs from the recorded baseline. -/
def filesToPatch (cfiles : List (String × Nat)) (fs : FS) : List String :=
  (cfiles.filter fun e => decide (fs.mtime e.1 ≠ e.2)).map Prod.fst

/-! ## Version extraction (module level, lines 181–190) -/

def isStripChar (c : Char) : Bool :=
  c = ' ' || c = '\n' || c = '\x27' || c = '\x22'

/-- Python `str.strip(" \n\x27\x22")`. -/
def stripChars (s : List Char) : List Char :=
  ((s.dropWhile isStripChar).reverse.dropWhile isStripChar).reverse

/-- The `for line in f: ... else: raise` loop reading
`asyncpg/__init__.py`: first line with the `__version__ =` prefix wins;
its post-`=` text is stripped of quotes, spaces and newlines. -/
def extractVersion : List String → Except PyError String
  | [] => .error .versionStringMissing
  | line :: rest =>
      if "__version__ =".data.isPrefixOf line.data then
        .ok (String.mk (stripChars (partEq line.data).2))
      else extractVersion rest

/-! ## The `build_ext` command object (`initialize_options` /
`finalize_options`, lines 38–109) -/

/-- The option fields of the command object, plus the `_initialized`
attribute its guards consult (`getattr(self, '_initialized', False)`). -/
structure BuildState where
  initializedFlag : Bool
  cythonAlways : Bool
  cythonAnnotate : Option Bool
  cythonDirectives : Option String
deriving DecidableEq, Repr

/-- The world a finalize call acts on: the declared extensions' source
lists, the filesystem, the importable Cython version (`none` = import
fails), a clock supplying fresh timestamps, and the observable effect
trace (transpiler invocations, patched files). -/
structure World where
  extModules : List (List String)
  fs : FS
  cythonVersion : Option String
  clock : Nat
  cythonizeCalls : Nat
  patchedFiles : List String
deriving DecidableEq, Repr

/-- Modelled from the spec: the external transpiler invocation
(`cythonize`, §4.4, not part of this repository) regenerates the
translation unit of every remaining higher-level source, giving it a
fresh modification timestamp, and replaces each extension's higher-level
entries with the generated paths. -/
def cythonizeModel (w : World) : World :=
  let newTime := w.clock + 1
  let pyxs := w.extModules.flatten.filter endsWithPyx
  { w with
    extModules :=
      w.extModules.map (List.map fun s => if endsWithPyx s then companionC s else s),
    fs := ⟨pyxs.foldl (fun fl s => updateDict (companionC s) newTime fl) w.fs.files⟩,
    clock := newTime,
    cythonizeCalls := w.cythonizeCalls + 1 }

/-- `finalize_options` (lines 50–109) as a state transition.  The guard
at lines 54–55 returns early when `_initialized` is true; the method
never assigns `_initialized`, so the transition leaves the command state
unchanged.  The directive-parse and cythonize steps run only when
`need_cythonize` holds, in source order: import check, version check,
directive parsing, invocation, then the timestamp-gated patch pass. -/
def finalizeOptions (s : BuildState) (w : World) :
    Except PyError (BuildState × World) :=
  if s.initializedFlag then .ok (s, w)
  else
    let scanned := scanExtensions w.fs s.cythonAlways w.extModules ⟨[], s.cythonAlways⟩
    let w1 := { w with extModules := scanned.1 }
    if scanned.2.needCythonize then
      match cythonCheck w.cythonVersion with
      | .error e => .error e
      | .ok () =>
          match
            (match s.cythonDirectives with
             | none => Except.ok []
             | some d => if d = "" then Except.ok [] else parseDirectives d) with
          | .error e => .error e
          | .ok _ =>
              let w2 := cythonizeModel w1
              let patched := filesToPatch scanned.2.cfiles w2.fs
              .ok (s, { w2 with patchedFiles := w2.patchedFiles ++ patched })
    else .ok (s, w1)

/-- Two consecutive `finalize_options` calls on the same command object. -/
def runTwice (s : BuildState) (w : World) : Except PyError (BuildState × World) :=
  match finalizeOptions s w with
  | .error e => .error e
  | .ok (s', w') => finalizeOptions s' w'

/-- Number of occurrences of a (nonempty) pattern string in a text. -/
def countOcc (pat : List Char) : List Char → Nat
  | [] => 0
  | c :: cs => (if pat.isPrefixOf (c :: cs) then 1 else 0) + countOcc pat cs

/-! ## Concrete data used by the claim witnesses -/

/-- A fresh command object: both option-processing guards unset,
`--cython-always` given, no annotate flag, no directive string. -/
def demoState : BuildState := ⟨false, true, none, none⟩

/-- One extension whose only source is `x.pyx`; no generated file on
disk; Cython 0.29 importable. -/
def demoWorld : World := ⟨[["x.pyx"]], ⟨[]⟩, some "0.29", 0, 0, []⟩

/-- The world after the first `finalize_options` call on `demoWorld`. -/
def demoWorld1 : World := ⟨[["x.c"]], ⟨[("x.c", 1)]⟩, some "0.29", 1, 1, ["x.c"]⟩

/-- The world after the second call: the transpiler ran again. -/
def demoWorld2 : World := ⟨[["x.c"]], ⟨[("x.c", 1)]⟩, some "0.29", 2, 2, ["x.c"]⟩

/-- An unpatched generated coroutine fragment: field-initializer block
plus the unguarded qualified-name accessor. -/
def sampleCoroutine : String :=
  "    offsetof(__pyx_CoroutineObject, gi_weakreflist),\n    0,\n    0,\n    __pyx_Coroutine_methods,\n    __pyx_Coroutine_memberlist,\n    __pyx_Coroutine_getsets,\n  __Pyx_Coroutine_get_qualname(__pyx_CoroutineObject *self)\n\x7b\n    Py_INCREF(self->gi_qualname);\n"

/-- A document containing the qualified-name accessor shape twice. -/
def doubledAccessor : String :=
  "__Pyx_Coroutine_get_qualname(__pyx_CoroutineObject *self)\n\x7b\nPy_INCREF(self->gi_qualname);\n__Pyx_Coroutine_get_qualname(__pyx_CoroutineObject *self)\n\x7b\nPy_INCREF(self->gi_qualname);\n"

/-- The text inserted by rule 2's null guard. -/
def nullGuardQual : String := "if (self->gi_qualname == NULL)"

def demoCfiles : List (String × Nat) := [("a.c", 5), ("b.c", 7)]

def demoFsPatch : FS := ⟨[("a.c", 9), ("b.c", 7)]⟩

def demoFsScan : FS := ⟨[("asyncpg/protocol/protocol.c", 3)]⟩

def demoSrcs : List String :=
  ["asyncpg/protocol/record/recordobj.c", "asyncpg/protocol/protocol.pyx"]

/-! ## Scanner metatheory -/

/-- Splitting literal consumption at a concatenation boundary. -/
theorem scanLit_append (l a b : List Char) :
    scanLit l (a ++ b) =
      match scanLit l a with
      | .failed => .failed
      | .done rest => .done (rest ++ b)
      | .ranOut lrem => scanLit lrem b := by
  induction l generalizing a with
  | nil => simp [scanLit]
  | cons x xs ih =>
      cases a with
      | nil => simp [scanLit]
      | cons c a' =>
          by_cases hx : x = c
          · subst hx
            simpa [scanLit] using ih a'
          · simp [scanLit, hx]

theorem scanLit_done_suffix (l cs rest : List Char) :
    scanLit l cs = .done rest → rest <:+ cs := by
  induction l generalizing cs with
  | nil =>
      intro h
      rw [scanLit] at h
      obtain rfl : cs = rest := by simpa using h
      exact List.suffix_refl _
  | cons x xs ih =>
      cases cs with
      | nil => intro h; rw [scanLit] at h; exact absurd h (by simp)
      | cons c cs' =>
          intro h
          by_cases hx : x = c
          · rw [scanLit, if_pos hx] at h
            exact (ih cs' h).trans (List.suffix_cons c cs')
          · rw [scanLit, if_neg hx] at h
            exact absurd h (by simp)

theorem scanLit_done_lt (x : Char) (xs cs rest : List Char) :
    scanLit (x :: xs) cs = .done rest → rest.length < cs.length := by
  cases cs with
  | nil => intro h; rw [scanLit] at h; exact absurd h (by simp)
  | cons c cs' =>
      intro h
      by_cases hx : x = c
      · rw [scanLit, if_pos hx] at h
        have := (scanLit_done_suffix xs cs' rest h).length_le
        simpa using Nat.lt_succ_of_le this
      · rw [scanLit, if_neg hx] at h
        exact absurd h (by simp)

/-- Running out of input mid-literal leaves a suffix of the literal. -/
theorem scanLit_ranOut_suffix (l cs lrem : List Char) :
    scanLit l cs = .ranOut lrem → lrem <:+ l := by
  induction l generalizing cs with
  | nil => intro h; rw [scanLit] at h; exact absurd h (by simp)
  | cons x xs ih =>
      cases cs with
      | nil =>
          intro h
          rw [scanLit] at h
          obtain rfl : lrem = x :: xs := by simpa using h.symm
          exact List.suffix_refl _
      | cons c cs' =>
          intro h
          by_cases hx : x = c
          · rw [scanLit, if_pos hx] at h
            exact (ih cs' h).trans (List.suffix_cons x xs)
          · rw [scanLit, if_neg hx] at h
            exact absurd h (by simp)

/-- Splitting a scan at a concatenation boundary. -/
theorem scanPat_append (σ : List PatElem) (a b : List Char) :
    scanPat σ (a ++ b) =
      match scanPat σ a with
      | .failed => .failed
      | .matched rest => .matched (rest ++ b)
      | .needMore σ' => scanPat σ' b := by
  induction σ generalizing a with
  | nil => simp [scanPat]
  | cons e es ih =>
      cases e with
      | lit l =>
          cases hl : scanLit l a with
          | failed => simp [scanPat, scanLit_append, hl]
          | done rest => simpa [scanPat, scanLit_append, hl] using ih rest
          | ranOut lrem => simp [scanPat, scanLit_append, hl]
      | ws0 =>
          cases hd : a.dropWhile pySpace with
          | nil => simp [scanPat, List.dropWhile_append, hd]
          | cons c a' =>
              simpa [scanPat, List.dropWhile_append, hd] using ih (c :: a')
      | ws1 =>
          cases a with
          | nil => simp [scanPat]
          | cons c a' =>
              by_cases hc : pySpace c
              · cases hd : a'.dropWhile pySpace with
                | nil => simp [scanPat, hc, List.dropWhile_append, hd]
                | cons d a'' =>
                    simpa [scanPat, hc, List.dropWhile_append, hd] using ih (d :: a'')
              · simp [scanPat, hc]

/-- `matchElems` across a concatenation boundary. -/
theorem matchElems_append (σ : List PatElem) (a b : List Char) :
    matchElems σ (a ++ b) =
      match scanPat σ a with
      | .failed => none
      | .matched rest => some (rest ++ b)
      | .needMore σ' => matchElems σ' b := by
  unfold matchElems
  rw [scanPat_append]
  cases scanPat σ a <;> simp [matchElems]

/-- A nullable residual pattern matches every input. -/
theorem nullable_isSome (σ : List PatElem) (cs : List Char) :
    nullable σ = true → (matchElems σ cs).isSome := by
  induction σ generalizing cs with
  | nil => intro _; simp [matchElems, scanPat]
  | cons e es ih =>
      cases e with
      | lit l =>
          cases l with
          | nil =>
              intro hn
              have hn' : nullable es = true := by simpa [nullable] using hn
              simpa [matchElems, scanPat, scanLit] using ih cs hn'
          | cons x xs => intro hn; simp [nullable] at hn
      | ws0 =>
          intro hn
          have hn' : nullable es = true := by simpa [nullable] using hn
          cases hd : cs.dropWhile pySpace with
          | nil => simp [matchElems, scanPat, hd, nullable, hn']
          | cons c cs' => simpa [matchElems, scanPat, hd] using ih (c :: cs') hn'
      | ws1 => intro hn; simp [nullable] at hn

/-- A successful scan leaves a suffix of the input. -/
theorem scanPat_matched_suffix (σ : List PatElem) (cs rest : List Char) :
    scanPat σ cs = .matched rest → rest <:+ cs := by
  induction σ generalizing cs with
  | nil =>
      intro h
      rw [scanPat] at h
      obtain rfl : cs = rest := by simpa using h
      exact List.suffix_refl _
  | cons e es ih =>
      cases e with
      | lit l =>
          intro h
          rw [scanPat] at h
          cases hl : scanLit l cs with
          | failed => rw [hl] at h; exact absurd h (by simp)
          | ranOut lrem => rw [hl] at h; exact absurd h (by simp)
          | done mid =>
              rw [hl] at h
              exact (ih mid h).trans (scanLit_done_suffix l cs mid hl)
      | ws0 =>
          intro h
          rw [scanPat] at h
          cases hd : cs.dropWhile pySpace with
          | nil => rw [hd] at h; exact absurd h (by simp)
          | cons c cs' =>
              rw [hd] at h
              exact (ih (c :: cs') h).trans (hd ▸ List.dropWhile_suffix pySpace)
      | ws1 =>
          intro h
          cases cs with
          | nil => simp [scanPat] at h
          | cons c cs0 =>
              simp only [scanPat] at h
              by_cases hc : pySpace c
              · rw [if_pos hc] at h
                cases hd : cs0.dropWhile pySpace with
                | nil => rw [hd] at h; exact absurd h (by simp)
                | cons d cs1 =>
                    rw [hd] at h
                    have h1 : (d :: cs1) <:+ cs0 := hd ▸ List.dropWhile_suffix pySpace
                    exact (ih (d :: cs1) h).trans (h1.trans (List.suffix_cons c cs0))
              · rw [if_neg hc] at h
                exact absurd h (by simp)

/-- A non-nullable pattern consumes at least one character to match. -/
theorem scanPat_matched_lt (σ : List PatElem) (cs rest : List Char) :
    nullable σ = false → scanPat σ cs = .matched rest → rest.length < cs.length := by
  induction σ generalizing cs with
  | nil => intro hn; simp [nullable] at hn
  | cons e es ih =>
      cases e with
      | lit l =>
          intro hn hm
          rw [scanPat] at hm
          cases hl : scanLit l cs with
          | failed => rw [hl] at hm; exact absurd hm (by simp)
          | ranOut lrem => rw [hl] at hm; exact absurd hm (by simp)
          | done mid =>
              rw [hl] at hm
              cases l with
              | nil =>
                  have hn' : nullable es = false := by simpa [nullable] using hn
                  rw [scanLit] at hl
                  obtain rfl : cs = mid := by simpa using hl
                  exact ih cs hn' hm
              | cons x xs =>
                  have h1 := (scanPat_matched_suffix es mid rest hm).length_le
                  exact Nat.lt_of_le_of_lt h1 (scanLit_done_lt x xs cs mid hl)
      | ws0 =>
          intro hn hm
          have hn' : nullable es = false := by simpa [nullable] using hn
          rw [scanPat] at hm
          cases hd : cs.dropWhile pySpace with
          | nil => rw [hd] at hm; exact absurd hm (by simp)
          | cons c cs' =>
              rw [hd] at hm
              have h1 := ih (c :: cs') hn' hm
              have h2 : (c :: cs').length ≤ cs.length :=
                (hd ▸ List.dropWhile_suffix pySpace).length_le
              omega
      | ws1 =>
          intro _ hm
          cases cs with
          | nil => simp [scanPat] at hm
          | cons c cs0 =>
              simp only [scanPat] at hm
              by_cases hc : pySpace c
              · rw [if_pos hc] at hm
                cases hd : cs0.dropWhile pySpace with
                | nil => rw [hd] at hm; exact absurd hm (by simp)
                | cons d cs1 =>
                    rw [hd] at hm
                    have h1 := (scanPat_matched_suffix es (d :: cs1) rest hm).length_le
                    have h2 : (d :: cs1).length ≤ cs0.length :=
                      (hd ▸ List.dropWhile_suffix pySpace).length_le
                    simp only [List.length_cons]
                    omega
              · rw [if_neg hc] at hm
                exact absurd hm (by simp)

/-- A non-nullable pattern does not match the empty input. -/
theorem matchElems_nil (p : List PatElem) (hn : nullable p = false) :
    matchElems p [] = none := by
  induction p with
  | nil => simp [nullable] at hn
  | cons e es ih =>
      cases e with
      | lit l =>
          cases l with
          | nil =>
              have hn' : nullable es = false := by simpa [nullable] using hn
              simpa [matchElems, scanPat, scanLit] using ih hn'
          | cons x xs => simp [matchElems, scanPat, scanLit, nullable]
      | ws0 =>
          have hn' : nullable es = false := by simpa [nullable] using hn
          simp [matchElems, scanPat, nullable, hn']
      | ws1 => simp [matchElems, scanPat, nullable]

/-- A successful match leaves a suffix of the input. -/
theorem matchElems_some_suffix (p : List PatElem) (cs rest : List Char) :
    matchElems p cs = some rest → rest <:+ cs := by
  unfold matchElems
  cases h : scanPat p cs with
  | failed => simp
  | matched rest' =>
      intro hs
      obtain rfl : rest' = rest := by simpa using hs
      exact scanPat_matched_suffix _ _ _ h
  | needMore σ' =>
      intro hs
      by_cases hnul : nullable σ' = true
      · obtain rfl : ([] : List Char) = rest := by simpa [hnul] using hs
        exact List.nil_suffix
      · simp [hnul] at hs

/-- A non-nullable pattern consumes at least one character per match. -/
theorem matchElems_some_lt (p : List PatElem) (cs rest : List Char)
    (hn : nullable p = false) : matchElems p cs = some rest → rest.length < cs.length := by
  intro hs
  cases cs with
  | nil => rw [matchElems_nil p hn] at hs; exact absurd hs (by simp)
  | cons c cs' =>
      revert hs
      unfold matchElems
      cases h : scanPat p (c :: cs') with
      | failed => simp
      | matched rest' =>
          intro hs
          obtain rfl : rest' = rest := by simpa using hs
          exact scanPat_matched_lt _ _ _ hn h
      | needMore σ' =>
          intro hs
          by_cases hnul : nullable σ' = true
          · obtain rfl : ([] : List Char) = rest := by simpa [hnul] using hs
            simp
          · simp [hnul] at hs

theorem self_mem_statesOf (σ : List PatElem) : σ ∈ statesOf σ := by
  cases σ with
  | nil => simp [statesOf]
  | cons e es =>
      cases e with
      | lit l =>
          rw [statesOf]
          exact List.mem_append_left _ (List.mem_map.mpr ⟨l, by simp, rfl⟩)
      | ws0 => simp [statesOf]
      | ws1 => simp [statesOf]

/-- The scanner's residual after exhausting its input is a residual state. -/
theorem scanPat_needMore_mem (σ σ' : List PatElem) (cs : List Char) :
    scanPat σ cs = .needMore σ' → σ' ∈ statesOf σ := by
  induction σ generalizing cs with
  | nil => intro h; rw [scanPat] at h; exact absurd h (by simp)
  | cons e es ih =>
      cases e with
      | lit l =>
          intro h
          rw [scanPat] at h
          cases hl : scanLit l cs with
          | failed => rw [hl] at h; exact absurd h (by simp)
          | done mid =>
              rw [hl] at h
              rw [statesOf]
              exact List.mem_append_right _ (ih mid h)
          | ranOut lrem =>
              rw [hl] at h
              obtain rfl : σ' = .lit lrem :: es := by simpa using h.symm
              rw [statesOf]
              refine List.mem_append_left _ (List.mem_map.mpr ⟨lrem, ?_, rfl⟩)
              exact (List.mem_tails _ _).mpr (scanLit_ranOut_suffix l cs lrem hl)
      | ws0 =>
          intro h
          rw [scanPat] at h
          cases hd : cs.dropWhile pySpace with
          | nil =>
              rw [hd] at h
              obtain rfl : σ' = .ws0 :: es := by simpa using h.symm
              rw [statesOf]
              exact List.mem_cons_self _ _
          | cons c cs' =>
              rw [hd] at h
              rw [statesOf]
              exact List.mem_cons_of_mem _ (ih (c :: cs') h)
      | ws1 =>
          intro h
          cases cs with
          | nil =>
              simp only [scanPat] at h
              obtain rfl : σ' = .ws1 :: es := by simpa using h.symm
              exact self_mem_statesOf _
          | cons c cs0 =>
              simp only [scanPat] at h
              by_cases hc : pySpace c
              · rw [if_pos hc] at h
                cases hd : cs0.dropWhile pySpace with
                | nil =>
                    rw [hd] at h
                    obtain rfl : σ' = .ws0 :: es := by simpa using h.symm
                    rw [statesOf]
                    exact List.mem_cons_of_mem _ (List.mem_cons_self _ _)
                | cons d cs1 =>
                    rw [hd] at h
                    rw [statesOf]
                    exact List.mem_cons_of_mem _ (List.mem_cons_of_mem _ (ih (d :: cs1) h))
              · rw [if_neg hc] at h
                exact absurd h (by simp)

/-- Residual states of residual states are residual states. -/
theorem statesOf_trans (q σ σ' : List PatElem) :
    σ ∈ statesOf q → σ' ∈ statesOf σ → σ' ∈ statesOf q := by
  induction q with
  | nil =>
      intro h1 h2
      rw [statesOf] at h1
      obtain rfl : σ = [] := by simpa using h1
      exact h2
  | cons e es ih =>
      cases e with
      | lit l =>
          intro h1 h2
          rw [statesOf] at h1 ⊢
          rcases List.mem_append.mp h1 with hmap | hes
          · obtain ⟨ls, hls, rfl⟩ := List.mem_map.mp hmap
            rw [statesOf] at h2
            rcases List.mem_append.mp h2 with hmap' | hes'
            · obtain ⟨ls', hls', rfl⟩ := List.mem_map.mp hmap'
              refine List.mem_append_left _ (List.mem_map.mpr ⟨ls', ?_, rfl⟩)
              exact (List.mem_tails _ _).mpr
                (((List.mem_tails _ _).mp hls').trans ((List.mem_tails _ _).mp hls))
            · exact List.mem_append_right _ hes'
          · exact List.mem_append_right _ (ih hes h2)
      | ws0 =>
          intro h1 h2
          rw [statesOf] at h1
          rcases List.mem_cons.mp h1 with rfl | hes
          · exact h2
          · rw [statesOf]
            exact List.mem_cons_of_mem _ (ih hes h2)
      | ws1 =>
          intro h1 h2
          rw [statesOf] at h1 ⊢
          rcases List.mem_cons.mp h1 with rfl | h1
          · rw [statesOf] at h2
            exact h2
          rcases List.mem_cons.mp h1 with rfl | hes
          · rw [statesOf] at h2
            rcases List.mem_cons.mp h2 with rfl | h2
            · exact List.mem_cons_of_mem _ (List.mem_cons_self _ _)
            · exact List.mem_cons_of_mem _ (List.mem_cons_of_mem _ h2)
          · exact List.mem_cons_of_mem _ (List.mem_cons_of_mem _ (ih hes h2))

theorem condA_spec (q : List PatElem) (r : List Char) (hA : condA q r = true)
    (σ : List PatElem) (hσ : σ ∈ statesOf q) (hn : nullable σ = false) :
    scanPat σ r = .failed := by
  have h := List.all_eq_true.mp hA σ hσ
  rw [hn] at h
  cases hs : scanPat σ r <;> rw [hs] at h <;> simp_all

theorem condB_spec (q : List PatElem) (r : List Char) (hB : condB q r = true)
    (t : List Char) (ht : t <:+ r) :
    scanPat q t = .failed ∨ scanPat q t = .needMore q := by
  have h := List.all_eq_true.mp hB t ((List.mem_tails _ _).mpr ht)
  cases hs : scanPat q t <;> rw [hs] at h
  · exact Or.inl rfl
  · simp at h
  · right
    have : _ = q := of_decide_eq_true h
    rw [this]

/-- Suffixes of `r ++ w` are suffixes of `w` or a suffix of `r` glued to
`w`. -/
theorem suffix_append_cases {α : Type} (r w t : List α) (h : t <:+ r ++ w) :
    t <:+ w ∨ ∃ u, u <:+ r ∧ t = u ++ w := by
  induction r with
  | nil => exact Or.inl (by simpa using h)
  | cons c r ih =>
      rcases List.suffix_cons_iff.mp h with rfl | h'
      · exact Or.inr ⟨c :: r, List.suffix_refl _, by simp⟩
      · rcases ih h' with hw | ⟨u, hu, rfl⟩
        · exact Or.inl hw
        · exact Or.inr ⟨u, hu.trans (List.suffix_cons c r), rfl⟩

/-! ## No residual state of `q` ever matches the substituted text -/

theorem subAllAux_nil (p : List PatElem) (r : List Char) (fuel : Nat) :
    subAllAux p r fuel [] = [] := by
  cases fuel <;> rfl

theorem subAllAux_cons (p : List PatElem) (r : List Char) (fuel : Nat)
    (c : Char) (cs : List Char) :
    subAllAux p r (fuel + 1) (c :: cs) =
      match matchElems p (c :: cs) with
      | some rest => r ++ subAllAux p r fuel rest
      | none => c :: subAllAux p r fuel cs := rfl

/-- If a residual state `σ` of `q` does not match at the start of `cs`,
it still does not match at the start after substituting rule `(p, r)`
through `cs` — provided `condA q r` holds. -/
theorem presStart (q p : List PatElem) (r : List Char)
    (hA : condA q r = true) (hp : nullable p = false) :
    ∀ fuel cs σ, σ ∈ statesOf q → cs.length ≤ fuel →
      matchElems σ cs = none → matchElems σ (subAllAux p r fuel cs) = none := by
  intro fuel
  induction fuel with
  | zero =>
      intro cs σ hσ hlen hnone
      cases cs with
      | nil => simpa [subAllAux_nil] using hnone
      | cons c cs' => exact absurd hlen (by simp)
  | succ fuel ih =>
      intro cs σ hσ hlen hnone
      cases cs with
      | nil => simpa [subAllAux_nil] using hnone
      | cons c cs' =>
          rw [subAllAux_cons]
          cases hm : matchElems p (c :: cs') with
          | some rest =>
              by_cases hnul : nullable σ = true
              · have := nullable_isSome σ (c :: cs') hnul
                rw [hnone] at this
                simp at this
              · have hfail := condA_spec q r hA σ hσ (by simpa using hnul)
                rw [matchElems_append, hfail]
          | none =>
              have hsplit := matchElems_append σ [c] cs'
              have hsplit' := matchElems_append σ [c] (subAllAux p r fuel cs')
              rw [show ([c] ++ cs' : List Char) = c :: cs' from rfl] at hsplit
              rw [show ([c] ++ subAllAux p r fuel cs' : List Char)
                    = c :: subAllAux p r fuel cs' from rfl] at hsplit'
              cases hstep : scanPat σ [c] with
              | failed => rw [hsplit', hstep]
              | matched rest' =>
                  rw [hstep] at hsplit
                  rw [hnone] at hsplit
                  exact absurd hsplit.symm (by simp)
              | needMore σ' =>
                  rw [hstep] at hsplit hsplit'
                  rw [hsplit']
                  have hσ' : σ' ∈ statesOf q :=
                    statesOf_trans q σ σ' hσ (scanPat_needMore_mem σ σ' [c] hstep)
                  have hnone' : matchElems σ' cs' = none := by
                    rw [hnone] at hsplit
                    exact hsplit.symm
                  exact ih cs' σ' hσ' (Nat.le_of_succ_le_succ (by simpa using hlen)) hnone'

/-- After substituting rule `(p, r)` through any text, `p` matches at no
position of the result — provided `condA p r` and `condB p r` hold. -/
theorem noMatchSubAll (p : List PatElem) (r : List Char)
    (hA : condA p r = true) (hB : condB p r = true) (hp : nullable p = false) :
    ∀ fuel cs, cs.length ≤ fuel →
      ∀ t, t <:+ subAllAux p r fuel cs → matchElems p t = none := by
  intro fuel
  induction fuel with
  | zero =>
      intro cs hlen t ht
      cases cs with
      | nil =>
          rw [subAllAux_nil] at ht
          obtain rfl : t = [] := List.suffix_nil.mp ht
          exact matchElems_nil p hp
      | cons c cs' => exact absurd hlen (by simp)
  | succ fuel ih =>
      intro cs hlen t ht
      cases cs with
      | nil =>
          rw [subAllAux_nil] at ht
          obtain rfl : t = [] := List.suffix_nil.mp ht
          exact matchElems_nil p hp
      | cons c cs' =>
          rw [subAllAux_cons] at ht
          have hlen' : cs'.length ≤ fuel := Nat.le_of_succ_le_succ (by simpa using hlen)
          cases hm : matchElems p (c :: cs') with
          | some rest =>
              rw [hm] at ht
              have hrest : rest.length ≤ fuel := by
                have hlt := matchElems_some_lt p (c :: cs') rest hp hm
                simp at hlt
                omega
              rcases suffix_append_cases r (subAllAux p r fuel rest) t ht with hW | ⟨u, hu, rfl⟩
              · exact ih rest hrest t hW
              · rw [matchElems_append]
                rcases condB_spec p r hB u hu with hf | hnm
                · rw [hf]
                · rw [hnm]
                  exact ih rest hrest _ (List.suffix_refl _)
          | none =>
              rw [hm] at ht
              rcases List.suffix_cons_iff.mp ht with rfl | hW
              · have hsplit := matchElems_append p [c] cs'
                have hsplit' := matchElems_append p [c] (subAllAux p r fuel cs')
                rw [show ([c] ++ cs' : List Char) = c :: cs' from rfl] at hsplit
                rw [show ([c] ++ subAllAux p r fuel cs' : List Char)
                      = c :: subAllAux p r fuel cs' from rfl] at hsplit'
                cases hstep : scanPat p [c] with
                | failed => rw [hsplit', hstep]
                | matched rest' =>
                    rw [hstep] at hsplit
                    rw [hm] at hsplit
                    exact absurd hsplit.symm (by simp)
                | needMore σ' =>
                    rw [hstep] at hsplit hsplit'
                    rw [hsplit']
                    have hσ' : σ' ∈ statesOf p := scanPat_needMore_mem p σ' [c] hstep
                    have hnone' : matchElems σ' cs' = none := by
                      rw [hm] at hsplit
                      exact hsplit.symm
                    exact presStart p p r hA hp fuel cs' σ' hσ' hlen' hnone'
              · exact ih cs' hlen' t hW

/-- If `q` matches nowhere in `cs`, it still matches nowhere after
substituting a different rule `(p, r)` through `cs` — provided
`condA q r` and `condB q r` hold. -/
theorem presAll (q p : List PatElem) (r : List Char)
    (hA : condA q r = true) (hB : condB q r = true) (hp : nullable p = false) :
    ∀ fuel cs, cs.length ≤ fuel →
      (∀ s, s <:+ cs → matchElems q s = none) →
      ∀ t, t <:+ subAllAux p r fuel cs → matchElems q t = none := by
  intro fuel
  induction fuel with
  | zero =>
      intro cs hlen hq t ht
      cases cs with
      | nil =>
          rw [subAllAux_nil] at ht
          obtain rfl : t = [] := List.suffix_nil.mp ht
          exact hq [] List.nil_suffix
      | cons c cs' => exact absurd hlen (by simp)
  | succ fuel ih =>
      intro cs hlen hq t ht
      cases cs with
      | nil =>
          rw [subAllAux_nil] at ht
          obtain rfl : t = [] := List.suffix_nil.mp ht
          exact hq [] List.nil_suffix
      | cons c cs' =>
          rw [subAllAux_cons] at ht
          have hlen' : cs'.length ≤ fuel := Nat.le_of_succ_le_succ (by simpa using hlen)
          cases hm : matchElems p (c :: cs') with
          | some rest =>
              rw [hm] at ht
              have hrest : rest.length ≤ fuel := by
                have hlt := matchElems_some_lt p (c :: cs') rest hp hm
                simp at hlt
                omega
              have hqrest : ∀ s, s <:+ rest → matchElems q s = none := fun s hs =>
                hq s (hs.trans (matchElems_some_suffix p (c :: cs') rest hm))
              rcases suffix_append_cases r (subAllAux p r fuel rest) t ht with hW | ⟨u, hu, rfl⟩
              · exact ih rest hrest hqrest t hW
              · rw [matchElems_append]
                rcases condB_spec q r hB u hu with hf | hnm
                · rw [hf]
                · rw [hnm]
                  exact ih rest hrest hqrest _ (List.suffix_refl _)
          | none =>
              rw [hm] at ht
              have hqcs' : ∀ s, s <:+ cs' → matchElems q s = none := fun s hs =>
                hq s (hs.trans (List.suffix_cons c cs'))
              rcases List.suffix_cons_iff.mp ht with rfl | hW
              · have hsplit := matchElems_append q [c] cs'
                have hsplit' := matchElems_append q [c] (subAllAux p r fuel cs')
                rw [show ([c] ++ cs' : List Char) = c :: cs' from rfl] at hsplit
                rw [show ([c] ++ subAllAux p r fuel cs' : List Char)
                      = c :: subAllAux p r fuel cs' from rfl] at hsplit'
                cases hstep : scanPat q [c] with
                | failed => rw [hsplit', hstep]
                | matched rest' =>
                    rw [hstep] at hsplit
                    rw [hq (c :: cs') (List.suffix_refl _)] at hsplit
                    exact absurd hsplit.symm (by simp)
                | needMore σ' =>
                    rw [hstep] at hsplit hsplit'
                    rw [hsplit']
                    have hσ' : σ' ∈ statesOf q := scanPat_needMore_mem q σ' [c] hstep
                    have hnone' : matchElems σ' cs' = none := by
                      rw [hq (c :: cs') (List.suffix_refl _)] at hsplit
                      exact hsplit.symm
                    exact presStart q p r hA hp fuel cs' σ' hσ' hlen' hnone'
              · exact ih cs' hlen' hqcs' t hW

/-- Substitution is the identity on text the pattern matches nowhere in. -/
theorem subAllAux_id (p : List PatElem) (r : List Char) :
    ∀ fuel cs, (∀ t, t <:+ cs → matchElems p t = none) →
      subAllAux p r fuel cs = cs := by
  intro fuel
  induction fuel with
  | zero =>
      intro cs hq
      cases cs with
      | nil => exact subAllAux_nil p r 0
      | cons c cs' => rfl
  | succ fuel ih =>
      intro cs hq
      cases cs with
      | nil => exact subAllAux_nil p r _
      | cons c cs' =>
          rw [subAllAux_cons, hq (c :: cs') (List.suffix_refl _)]
          rw [ih cs' fun s hs => hq s (hs.trans (List.suffix_cons c cs'))]

/-! ## The conditions hold for the rule set of `_patch_cfile` -/

theorem condA_11 : condA pat1 rep1 = true := by decide
theorem condB_11 : condB pat1 rep1 = true := by decide
theorem condA_22 : condA pat2 rep2 = true := by decide
theorem condB_22 : condB pat2 rep2 = true := by decide
theorem condA_33 : condA pat3 rep3 = true := by decide
theorem condB_33 : condB pat3 rep3 = true := by decide
theorem condA_12 : condA pat1 rep2 = true := by decide
theorem condB_12 : condB pat1 rep2 = true := by decide
theorem condA_13 : condA pat1 rep3 = true := by decide
theorem condB_13 : condB pat1 rep3 = true := by decide
theorem condA_23 : condA pat2 rep3 = true := by decide
theorem condB_23 : condB pat2 rep3 = true := by decide
theorem nonNullable_pat1 : nullable pat1 = false := by decide
theorem nonNullable_pat2 : nullable pat2 = false := by decide
theorem nonNullable_pat3 : nullable pat3 = false := by decide

theorem subAll_noMatch (p : List PatElem) (r : List Char)
    (hA : condA p r = true) (hB : condB p r = true) (hp : nullable p = false)
    (cs : List Char) : NoMatch p (subAll p r cs) :=
  fun t ht => noMatchSubAll p r hA hB hp cs.length cs (Nat.le_refl _) t ht

theorem subAll_pres (q p : List PatElem) (r : List Char)
    (hA : condA q r = true) (hB : condB q r = true) (hp : nullable p = false)
    (cs : List Char) (h : NoMatch q cs) : NoMatch q (subAll p r cs) :=
  fun t ht => presAll q p r hA hB hp cs.length cs (Nat.le_refl _) h t ht

theorem subAll_id (p : List PatElem) (r : List Char) (cs : List Char)
    (h : NoMatch p cs) : subAll p r cs = cs :=
  subAllAux_id p r cs.length cs h

/-- None of the three patterns matches anywhere in patched output. -/
theorem patchText_noMatch (src : List Char) :
    NoMatch pat1 (patchText src) ∧ NoMatch pat2 (patchText src) ∧
      NoMatch pat3 (patchText src) := by
  have h1a : NoMatch pat1 (subAll pat1 rep1 src) :=
    subAll_noMatch pat1 rep1 condA_11 condB_11 nonNullable_pat1 src
  have h1b : NoMatch pat1 (subAll pat2 rep2 (subAll pat1 rep1 src)) :=
    subAll_pres pat1 pat2 rep2 condA_12 condB_12 nonNullable_pat2 _ h1a
  have h1c : NoMatch pat1 (patchText src) :=
    subAll_pres pat1 pat3 rep3 condA_13 condB_13 nonNullable_pat3 _ h1b
  have h2a : NoMatch pat2 (subAll pat2 rep2 (subAll pat1 rep1 src)) :=
    subAll_noMatch pat2 rep2 condA_22 condB_22 nonNullable_pat2 _
  have h2b : NoMatch pat2 (patchText src) :=
    subAll_pres pat2 pat3 rep3 condA_23 condB_23 nonNullable_pat3 _ h2a
  have h3 : NoMatch pat3 (patchText src) :=
    subAll_noMatch pat3 rep3 condA_33 condB_33 nonNullable_pat3 _
  exact ⟨h1c, h2b, h3⟩

/-- The three-rule transform is idempotent. -/
theorem patchText_idem (src : List Char) :
    patchText (patchText src) = patchText src := by
  obtain ⟨h1, h2, h3⟩ := patchText_noMatch src
  show subAll pat3 rep3 (subAll pat2 rep2 (subAll pat1 rep1 (patchText src))) = patchText src
  rw [subAll_id pat1 rep1 _ h1, subAll_id pat2 rep2 _ h2, subAll_id pat3 rep3 _ h3]

/-! ## Helper lemmas about the staleness loop and the patch gate -/

theorem scanSources_fst (fs : FS) (always : Bool) :
    ∀ (srcs : List String) (st : ScanState),
      (scanSources fs always srcs st).1 = srcs.map (newEntry fs always) := by
  intro srcs
  induction srcs with
  | nil => intro st; rfl
  | cons s rest ih => intro st; simp [scanSources, ih]

theorem newEntry_of_not_pyx (fs : FS) (always : Bool) (s : String)
    (h : endsWithPyx s = false) : newEntry fs always s = s := by
  simp [newEntry, stalenessDecision, h]

theorem newEntry_cases (fs : FS) (always : Bool) (s : String) :
    newEntry fs always s = s ∨
      (endsWithPyx s = true ∧ newEntry fs always s = companionC s) := by
  by_cases hp : endsWithPyx s = true
  · by_cases hr : fs.pathExists (companionC s) && !always
    · exact Or.inr ⟨hp, by simp [newEntry, stalenessDecision, hp, hr]⟩
    · refine Or.inl ?_
      simp only [newEntry, stalenessDecision, hp, if_true]
      rw [if_neg (by simpa using hr)]
  · exact Or.inl (newEntry_of_not_pyx fs always s (by simpa using hp))

theorem getD_map_lt (f : String → String) (l : List String) (i : Nat)
    (h : i < l.length) : (l.map f).getD i "" = f (l.getD i "") := by
  simp [List.getD_eq_getElem?_getD, List.getElem?_map, List.getElem?_eq_getElem h]

/-- In a list with no duplicate keys, a key determines its value. -/
theorem nodupKeys_val_eq {β : Type} (c : String) (t t' : β) :
    ∀ l : List (String × β), (l.map Prod.fst).Nodup →
      (c, t) ∈ l → (c, t') ∈ l → t = t' := by
  intro l
  induction l with
  | nil => intro _ h1 _; cases h1
  | cons e rest ih =>
      intro hnd h1 h2
      obtain ⟨k0, v0⟩ := e
      rw [List.map_cons, List.nodup_cons] at hnd
      obtain ⟨hnotin, hnd'⟩ := hnd
      rcases List.mem_cons.mp h1 with he1 | h1'
      · injection he1 with hk1 hv1
        rcases List.mem_cons.mp h2 with he2 | h2'
        · injection he2 with hk2 hv2
          rw [hv1, hv2]
        · exact absurd (List.mem_map.mpr ⟨(c, t'), h2', hk1⟩) hnotin
      · rcases List.mem_cons.mp h2 with he2 | h2'
        · injection he2 with hk2 hv2
          exact absurd (List.mem_map.mpr ⟨(c, t), h1', hk2⟩) hnotin
        · exact ih hnd' h1' h2'

theorem mem_filesToPatch (cfiles : List (String × Nat)) (fs : FS) (c : String) :
    c ∈ filesToPatch cfiles fs ↔ ∃ t, (c, t) ∈ cfiles ∧ fs.mtime c ≠ t := by
  unfold filesToPatch
  constructor
  · intro h
    obtain ⟨e, hmem, rfl⟩ := List.mem_map.mp h
    obtain ⟨hin, hp⟩ := List.mem_filter.mp hmem
    exact ⟨e.2, hin, by simpa using hp⟩
  · intro ⟨t, hin, hne⟩
    exact List.mem_map.mpr ⟨(c, t), List.mem_filter.mpr ⟨hin, by simpa using hne⟩, rfl⟩

/-! ## The claims -/

/-- C1: the claim says the `initialized` guard transitions false→true
exactly once, making the second `FinalizeOptions` call a no-op with one
transpiler invocation in total.  The code never assigns `_initialized`,
so the guard never fires: with `--cython-always`, two consecutive calls
on a fresh command object leave the flag false and invoke the transpiler
twice.  (Code bug: the comments at lines 39–41 and 51–53 document the
guard's intent, but no code sets the flag.) -/
theorem claim1_finalize_guard_dead :
    finalizeOptions demoState demoWorld = .ok (demoState, demoWorld1) ∧
    finalizeOptions demoState demoWorld1 = .ok (demoState, demoWorld2) ∧
    demoState.initializedFlag = false ∧
    demoWorld1.cythonizeCalls = 1 ∧
    demoWorld2.cythonizeCalls = 2 ∧
    runTwice demoState demoWorld = .ok (demoState, demoWorld2) := by
  refine ⟨rfl, rfl, rfl, rfl, rfl, rfl⟩

/-- C2: the claim says directive parsing never raises.  It does: a token
whose value lowercases to `false` makes the first normalization `if`
rebind the value to the boolean `False`, and the second `if` calls
`.lower()` on that boolean — `AttributeError`.  Tokens without `=` and
`true`-valued tokens are handled leniently, as the claim describes. -/
theorem claim2_directive_parse_raises :
    parseDirectives "a=false" = .error .attributeError ∧
    parseDirectives "noequals" = .ok [("noequals", .strVal "")] ∧
    parseDirectives "a=TRUE" = .ok [("a", .boolVal true)] := by
  refine ⟨rfl, rfl, rfl⟩

/-- C3: on the claim's own example `"a=False,b=True,c=x"` the parser
raises `AttributeError` at the first token instead of producing
`{a: false, b: true, c: "x"}`. -/
theorem claim3_directive_example_raises :
    parseDirectives "a=False,b=True,c=x" = .error .attributeError := rfl

/-- C4: the patch transform is idempotent: applying the three-rule
transform twice is byte-identical to applying it once, and on patched
output (in particular on text already containing the corrected
iterator-slot block and guarded accessors) each rule matches nothing. -/
theorem claim4_patch_idempotent (src : List Char) :
    patchText (patchText src) = patchText src ∧
    (∀ t, t <:+ patchText src → matchElems pat1 t = none) ∧
    (∀ t, t <:+ patchText src → matchElems pat2 t = none) ∧
    (∀ t, t <:+ patchText src → matchElems pat3 t = none) :=
  ⟨patchText_idem src, (patchText_noMatch src).1,
    (patchText_noMatch src).2.1, (patchText_noMatch src).2.2⟩

theorem claim4_patch_idempotent_witness :
    patchText (patchText sampleCoroutine.data) = patchText sampleCoroutine.data ∧
    matchElems pat2 (patchText sampleCoroutine.data) = none :=
  ⟨(claim4_patch_idempotent sampleCoroutine.data).1,
    (claim4_patch_idempotent sampleCoroutine.data).2.2.1
      (patchText sampleCoroutine.data) (List.suffix_refl _)⟩

/-- C5 counterexample: the claim says each rule rewrites at most one
occurrence per document.  `re.sub` substitutes globally: on a document
with two accessor shapes, rule 2 inserts the null guard twice, and the
result differs from the count-1 substitution. -/
theorem claim5_counterexample :
    subAll pat2 rep2 doubledAccessor.data ≠ subFirst pat2 rep2 doubledAccessor.data ∧
    countOcc nullGuardQual.data (subAll pat2 rep2 doubledAccessor.data) = 2 ∧
    countOcc nullGuardQual.data (subFirst pat2 rep2 doubledAccessor.data) = 1 := by
  refine ⟨by decide, by decide, by decide⟩

/-- C5 (amended): each rule's scope is global — it rewrites every
occurrence of its target shape, leaving no occurrence of its pattern in
its output. -/
theorem claim5_global_substitution (cs : List Char) :
    (∀ t, t <:+ subAll pat1 rep1 cs → matchElems pat1 t = none) ∧
    (∀ t, t <:+ subAll pat2 rep2 cs → matchElems pat2 t = none) ∧
    (∀ t, t <:+ subAll pat3 rep3 cs → matchElems pat3 t = none) :=
  ⟨subAll_noMatch pat1 rep1 condA_11 condB_11 nonNullable_pat1 cs,
   subAll_noMatch pat2 rep2 condA_22 condB_22 nonNullable_pat2 cs,
   subAll_noMatch pat3 rep3 condA_33 condB_33 nonNullable_pat3 cs⟩

theorem claim5_global_substitution_witness :
    matchElems pat2 (subAll pat2 rep2 doubledAccessor.data) = none :=
  (claim5_global_substitution doubledAccessor.data).2.1
    (subAll pat2 rep2 doubledAccessor.data) (List.suffix_refl _)

/-- C6: the three-case staleness decision for a `.pyx` source: with
`--cython-always`, regeneration regardless of existence, recording the
companion's timestamp or the `0` sentinel; without it, an existing
companion suppresses regeneration and the source entry is rewritten to
the companion; an absent companion is recorded with the sentinel. -/
theorem claim6_staleness_cases (fs : FS) (always : Bool) (sfile : String)
    (h : endsWithPyx sfile = true) :
    (always = true →
      stalenessDecision fs always sfile =
        .regen (companionC sfile)
          (if fs.pathExists (companionC sfile) then fs.mtime (companionC sfile) else 0)) ∧
    (always = false → fs.pathExists (companionC sfile) = true →
      stalenessDecision fs always sfile = .rewritten (companionC sfile) ∧
      newEntry fs always sfile = companionC sfile) ∧
    (always = false → fs.pathExists (companionC sfile) = false →
      stalenessDecision fs always sfile = .regen (companionC sfile) 0) := by
  refine ⟨?_, ?_, ?_⟩
  · intro ha
    subst ha
    simp [stalenessDecision, h]
  · intro ha he
    subst ha
    constructor
    · simp [stalenessDecision, h, he]
    · simp [newEntry, stalenessDecision, h, he]
  · intro ha he
    subst ha
    simp [stalenessDecision, h, he]

theorem claim6_staleness_cases_witness :
    endsWithPyx "asyncpg/protocol/protocol.pyx" = true ∧
    stalenessDecision demoFsScan false "asyncpg/protocol/protocol.pyx" =
      .rewritten (companionC "asyncpg/protocol/protocol.pyx") ∧
    newEntry demoFsScan false "asyncpg/protocol/protocol.pyx" =
      companionC "asyncpg/protocol/protocol.pyx" :=
  ⟨by decide,
    ((claim6_staleness_cases demoFsScan false "asyncpg/protocol/protocol.pyx"
      (by decide)).2.1 rfl (by decide)).1,
    ((claim6_staleness_cases demoFsScan false "asyncpg/protocol/protocol.pyx"
      (by decide)).2.1 rfl (by decide)).2⟩

/-- C7: the patch pass runs exactly on the recorded translation units
whose current timestamp differs from the recorded baseline; a recorded
unit whose timestamp is unchanged is never patched. -/
theorem claim7_patch_gate (cfiles : List (String × Nat)) (fs : FS)
    (hnd : (cfiles.map Prod.fst).Nodup) (c : String) :
    (c ∈ filesToPatch cfiles fs ↔ ∃ t, (c, t) ∈ cfiles ∧ fs.mtime c ≠ t) ∧
    (∀ t, (c, t) ∈ cfiles → fs.mtime c = t → c ∉ filesToPatch cfiles fs) := by
  refine ⟨mem_filesToPatch cfiles fs c, ?_⟩
  intro t hmem heq hin
  obtain ⟨t', hmem', hne'⟩ := (mem_filesToPatch cfiles fs c).mp hin
  rw [nodupKeys_val_eq c t' t cfiles hnd hmem' hmem] at hne'
  exact hne' heq

theorem claim7_patch_gate_witness :
    "a.c" ∈ filesToPatch demoCfiles demoFsPatch ∧
    "b.c" ∉ filesToPatch demoCfiles demoFsPatch :=
  ⟨(claim7_patch_gate demoCfiles demoFsPatch (by decide) "a.c").1.mpr
      ⟨5, by decide, by decide⟩,
   (claim7_patch_gate demoCfiles demoFsPatch (by decide) "b.c").2 7
      (by decide) (by decide)⟩

/-- C8: with regeneration needed, finalization fails with
`ToolUnavailable` when the transpiler cannot be imported and with
`ToolVersionTooOld` when its version compares below `'0.24'`, and passes
the gate otherwise; with no regeneration needed the gate is skipped and
cannot fail. -/
theorem claim8_tool_gate (need : Bool) (cython : Option String) :
    (need = false → toolGate need cython = .ok ()) ∧
    (need = true → cython = none → toolGate need cython = .error .toolUnavailable) ∧
    (need = true → ∀ v, cython = some v → pyStrLt v.data "0.24".data = true →
      toolGate need cython = .error .toolVersionTooOld) ∧
    (need = true → ∀ v, cython = some v → pyStrLt v.data "0.24".data = false →
      toolGate need cython = .ok ()) := by
  refine ⟨?_, ?_, ?_, ?_⟩
  · intro h; subst h; rfl
  · intro h hc; subst h; subst hc; rfl
  · intro h v hc hv
    subst h; subst hc
    simp [toolGate, cythonCheck, hv]
  · intro h v hc hv
    subst h; subst hc
    simp [toolGate, cythonCheck, hv]

theorem claim8_tool_gate_witness :
    toolGate false none = .ok () ∧
    toolGate true none = .error .toolUnavailable ∧
    toolGate true (some "0.23.9") = .error .toolVersionTooOld ∧
    toolGate true (some "0.24") = .ok () :=
  ⟨(claim8_tool_gate false none).1 rfl,
   (claim8_tool_gate true none).2.1 rfl rfl,
   (claim8_tool_gate true (some "0.23.9")).2.2.1 rfl "0.23.9" rfl (by decide),
   (claim8_tool_gate true (some "0.24")).2.2.2 rfl "0.24" rfl (by decide)⟩

/-- C9: version extraction takes the first line with the
`__version__ =` prefix, keeps the text after the first `=` stripped of
spaces, newlines and quotes (so `__version__ = '1.2.3'\n` yields
`1.2.3`), and fails with `VersionStringMissing` when no line has the
prefix. -/
theorem claim9_version_extraction :
    extractVersion ["__version__ = \x271.2.3\x27\n"] = .ok "1.2.3" ∧
    ∀ lines : List String,
      (∀ l ∈ lines, "__version__ =".data.isPrefixOf l.data = false) →
      extractVersion lines = .error .versionStringMissing := by
  constructor
  · rfl
  · intro lines h
    induction lines with
    | nil => rfl
    | cons l rest ih =>
        rw [extractVersion, if_neg (by simp [h l (List.mem_cons_self l rest)])]
        exact ih fun l' hl' => h l' (List.mem_cons_of_mem l hl')

theorem claim9_version_extraction_witness :
    extractVersion ["import foo\n", "x = 1\n"] = .error .versionStringMissing :=
  claim9_version_extraction.2 ["import foo\n", "x = 1\n"] (by decide)

/-- C10: frame property of the staleness pass over one extension's
source list: the length is preserved, every entry is produced in place
from the old entry, a non-`.pyx` entry is left unchanged, and an entry
that does change is a `.pyx` entry replaced by its companion path. -/
theorem claim10_scan_frame (fs : FS) (always : Bool) (srcs : List String)
    (st : ScanState) :
    (scanSources fs always srcs st).1.length = srcs.length ∧
    ∀ i, i < srcs.length →
      (endsWithPyx (srcs.getD i "") = false →
        (scanSources fs always srcs st).1.getD i "" = srcs.getD i "") ∧
      ((scanSources fs always srcs st).1.getD i "" = srcs.getD i "" ∨
        (endsWithPyx (srcs.getD i "") = true ∧
          (scanSources fs always srcs st).1.getD i "" = companionC (srcs.getD i ""))) := by
  rw [scanSources_fst]
  refine ⟨List.length_map srcs _, ?_⟩
  intro i hi
  rw [getD_map_lt _ _ _ hi]
  constructor
  · intro hp
    exact newEntry_of_not_pyx fs always _ hp
  · exact newEntry_cases fs always (srcs.getD i "")

theorem claim10_scan_frame_witness :
    (scanSources demoFsScan false demoSrcs ⟨[], false⟩).1.length = demoSrcs.length ∧
    (scanSources demoFsScan false demoSrcs ⟨[], false⟩).1.getD 0 "" = demoSrcs.getD 0 "" :=
  ⟨(claim10_scan_frame demoFsScan false demoSrcs ⟨[], false⟩).1,
   ((claim10_scan_frame demoFsScan false demoSrcs ⟨[], false⟩).2 0 (by decide)).1
     (by decide)⟩

end AsyncpgSetup

